import Mathlib

set_option maxHeartbeats 1000000

namespace RustBittorrent

/-! # Byte-level model of Rust strings

A Rust `&str` is a sequence of Unicode scalar values stored as UTF-8 bytes.
We model it as `List Char`; `charBytes` is the UTF-8 width of one scalar
(as computed by Rust's `char::len_utf8`).  Byte positions (`str::find`,
slicing `&s[a..b]`, `s.len()`) are modelled by the `byte*` functions below;
character positions (`s.chars().nth(i)`) by plain list indexing. -/

def charBytes (c : Char) : Nat :=
  if c.toNat < 128 then 1 else if c.toNat < 2048 then 2
  else if c.toNat < 65536 then 3 else 4

def byteLen (s : List Char) : Nat := (s.map charBytes).sum

def AsciiStr (s : List Char) : Prop := ∀ c ∈ s, c.toNat < 128

/-- Byte index of the first occurrence of `c` (Rust `str::find`). -/
def byteFind : List Char → Char → Option Nat
  | [], _ => none
  | x :: xs, c => if x = c then some 0 else (byteFind xs c).map (charBytes x + ·)

/-- Drop exactly `n` bytes (Rust `&s[n..]`); `none` models the slice panic
when `n` is not a character boundary or exceeds the length. -/
def byteDrop (s : List Char) (n : Nat) : Option (List Char) :=
  match n, s with
  | 0, s => some s
  | _+1, [] => none
  | n+1, x :: xs =>
    if charBytes x ≤ n+1 then byteDrop xs (n+1 - charBytes x) else none

/-- Take exactly `n` bytes (Rust `&s[..n]`); `none` models the slice panic. -/
def byteTake (s : List Char) (n : Nat) : Option (List Char) :=
  match n, s with
  | 0, _ => some []
  | _+1, [] => none
  | n+1, x :: xs =>
    if charBytes x ≤ n+1 then (byteTake xs (n+1 - charBytes x)).map (x :: ·) else none

/-- Rust `&s[a..b]`. -/
def byteSlice (s : List Char) (a b : Nat) : Option (List Char) :=
  if a ≤ b then (byteDrop s a).bind (fun t => byteTake t (b - a)) else none

/-! # The decoded value model

`decode_bencoded_value` in `src/main.rs` returns a `serde_json::Value`;
only strings, 64-bit integers, arrays and objects are ever produced.  The
object map is `serde_json`'s default `BTreeMap<String, Value>`: keys kept
in byte-lexicographic order, `insert` overwriting an existing key.  We model
it as a sorted association list. -/

inductive Json where
  | str : List Char → Json
  | int : Int → Json
  | arr : List Json → Json
  | obj : List (List Char × Json) → Json

/-- Byte-lexicographic strict order on strings (Rust `String` `Ord`;
UTF-8 byte order coincides with scalar-value order). -/
def lexLt : List Char → List Char → Bool
  | [], [] => false
  | [], _ :: _ => true
  | _ :: _, [] => false
  | a :: as', b :: bs =>
    if a.toNat < b.toNat then true
    else if a.toNat = b.toNat then lexLt as' bs else false

/-- `BTreeMap::insert` on a key-sorted association list (overwrites the
value when the key is present). -/
def mapInsert : List (List Char × Json) → List Char → Json → List (List Char × Json)
  | [], k, v => [(k, v)]
  | (k', v') :: rest, k, v =>
    if lexLt k k' then (k, v) :: (k', v') :: rest
    else if k = k' then (k', v) :: rest
    else (k', v') :: mapInsert rest k v

/-! # Rust integer parsing

`"…".parse::<usize>()` / `parse::<i64>()`: an optional sign followed by one
or more ASCII digits; leading zeros are accepted; the value must fit the
target type.  `none` models `Err`. -/

def digitsVal (cs : List Char) : Nat :=
  cs.foldl (fun a c => a * 10 + (c.toNat - 48)) 0

def parseDigits (cs : List Char) : Option Nat :=
  match cs with
  | [] => none
  | _ :: _ => if cs.all Char.isDigit then some (digitsVal cs) else none

/-- Rust `str::parse::<usize>` (64-bit target). -/
def rustParseNat (s : List Char) : Option Nat :=
  match s with
  | [] => none
  | c :: rest =>
    let ds := if c = '+' then rest else s
    (parseDigits ds).bind fun n =>
      if n < 18446744073709551616 then some n else none

/-- Rust `str::parse::<i64>`. -/
def rustParseInt (s : List Char) : Option Int :=
  match s with
  | [] => none
  | c :: rest =>
    if c = '+' then
      (parseDigits rest).bind fun n =>
        if n ≤ 9223372036854775807 then some (n : Int) else none
    else if c = '-' then
      (parseDigits rest).bind fun n =>
        if n ≤ 9223372036854775808 then some (-(n : Int)) else none
    else
      (parseDigits s).bind fun n =>
        if n ≤ 9223372036854775807 then some (n : Int) else none

/-! # The decoder

`decode_bencoded_value` from `src/main.rs`, embedded faithfully:

* the function takes a Rust `&str` and returns `(serde_json::Value, usize)`;
  every panic (`unwrap`, `expect`, explicit `panic!`, `safe_char_at` running
  out of characters, a byte-slice that is out of bounds or not on a char
  boundary) is modelled as `none`;
* `encoded.find(…)`, slicing and `encoded.len()` are byte-based
  (`byteFind`, `byteSlice`, `byteLen`), while the list/dict loops test the
  loop position with `safe_char_at`, i.e. a *character* index (`s[idx]?`) —
  exactly the mixed indexing of the source;
* the recursion is driven by a fuel parameter (the source recurses on
  suffixes, so any fuel larger than the consumed prefix count behaves like
  the source; the top-level wrapper passes `2 * byteLen s + 2`, which is
  proved sufficient for every successful parse we assert). -/

mutual

def decodeF : Nat → List Char → Option (Json × Nat)
  | 0, _ => none
  | fuel+1, s =>
    match s with
    | [] => none
    | c :: _ =>
      if c.isDigit then
        match byteFind s ':' with
        | none => none
        | some colonIdx =>
          match byteTake s colonIdx with
          | none => none
          | some lengthStr =>
            match rustParseNat lengthStr with
            | none => none
            | some len =>
              let startS := colonIdx + 1
              let endS := startS + len
              if endS > byteLen s then none
              else
                match byteSlice s startS endS with
                | none => none
                | some actual => some (Json.str actual, endS)
      else if c = 'i' then
        match byteFind s 'e' with
        | none => none
        | some endIdx =>
          match byteSlice s 1 endIdx with
          | none => none
          | some numStr =>
            match rustParseInt numStr with
            | none => none
            | some n => some (Json.int n, endIdx + 1)
      else if c = 'l' then
        match decodeListF fuel s 1 [] with
        | none => none
        | some (items, idx) => some (Json.arr items, idx)
      else if c = 'd' then
        match decodeDictF fuel s 1 [] with
        | none => none
        | some (m, idx) => some (Json.obj m, idx)
      else none

def decodeListF : Nat → List Char → Nat → List Json → Option (List Json × Nat)
  | 0, _, _, _ => none
  | fuel+1, s, idx, acc =>
    match s[idx]? with
    | none => none
    | some ch =>
      if ch = 'e' then some (acc, idx + 1)
      else
        match byteDrop s idx with
        | none => none
        | some sub =>
          match decodeF fuel sub with
          | none => none
          | some (v, used) => decodeListF fuel s (idx + used) (acc ++ [v])

def decodeDictF : Nat → List Char → Nat → List (List Char × Json) →
    Option (List (List Char × Json) × Nat)
  | 0, _, _, _ => none
  | fuel+1, s, idx, m =>
    match s[idx]? with
    | none => none
    | some ch =>
      if ch = 'e' then some (m, idx + 1)
      else
        match byteDrop s idx with
        | none => none
        | some subK =>
          match decodeF fuel subK with
          | none => none
          | some (keyVal, usedK) =>
            match byteDrop s (idx + usedK) with
            | none => none
            | some subV =>
              match decodeF fuel subV with
              | none => none
              | some (valVal, usedV) =>
                match keyVal with
                | Json.str k => decodeDictF fuel s (idx + usedK + usedV) (mapInsert m k valVal)
                | _ => none

end

/-- `decode_bencoded_value` from `src/main.rs`. -/
def decode_bencoded_value (s : List Char) : Option (Json × Nat) :=
  decodeF (2 * byteLen s + 2) s

/-! # The encoder

Modelled from the spec: the repository serializes through the external
`serde_bencode` crate, so the Encoder component (§4.2) is not in `src/`.
Per the spec it emits byte strings as `<len>:<bytes>` with `len` the byte
length in minimal decimal form, integers as `i<decimal>e`, lists as
`l<elements>e` and maps as `d<key-value pairs>e` with keys in
byte-lexicographic ascending order (our `Json.obj` carries its pairs in
that order, so they are emitted as stored). -/

/-- Decimal digits of a positive number, most significant first, driven by
fuel (any fuel ≥ the digit count gives the digits; we pass `n` itself). -/
def natCharsAux : Nat → Nat → List Char
  | 0, _ => []
  | fuel+1, n =>
    if n = 0 then [] else natCharsAux fuel (n / 10) ++ [Nat.digitChar (n % 10)]

/-- Minimal decimal digits of `n`, most significant first. -/
def natChars (n : Nat) : List Char :=
  if n = 0 then ['0'] else natCharsAux n n

def intChars (n : Int) : List Char :=
  if n < 0 then '-' :: natChars n.natAbs else natChars n.toNat

/-- `<byte-length>:<contents>` — the length-prefixed string encoding. -/
def strEnc (s : List Char) : List Char :=
  natChars (byteLen s) ++ ':' :: s

mutual

def encode : Json → List Char
  | .str s => strEnc s
  | .int n => 'i' :: (intChars n ++ ['e'])
  | .arr vs => 'l' :: (encodeList vs ++ ['e'])
  | .obj ps => 'd' :: (encodePairs ps ++ ['e'])

def encodeList : List Json → List Char
  | [] => []
  | v :: vs => encode v ++ encodeList vs

def encodePairs : List (List Char × Json) → List Char
  | [] => []
  | (k, v) :: ps => (natChars (byteLen k) ++ ':' :: k) ++ (encode v ++ encodePairs ps)

end

/-- Modelled from the spec: `encode_length_prefixed` (§8) is the byte-string
case of the Encoder. -/
def encode_length_prefixed (s : List Char) : List Char := strEnc s

/-! # Model invariants (spec §3), as an executable predicate

`goodB v` holds when `v` satisfies the spec's model invariants — integers
fit in signed 64 bits, map keys are mutually distinct and already in
byte-lexicographic ascending order, string lengths are machine
representable (`usize`) — and additionally every string is ASCII, the
amendment forced on the round-trip law by the source's character-indexed
list/dict scanning. -/

def asciiB (s : List Char) : Bool := s.all (fun c => c.toNat < 128)

def goodStrB (s : List Char) : Bool :=
  asciiB s && decide (s.length < 18446744073709551616)

/-- Every later key is strictly greater: keys sorted and mutually distinct. -/
def keysSortedB : List (List Char × Json) → Bool
  | [] => true
  | p :: rest => rest.all (fun q => lexLt p.1 q.1) && keysSortedB rest

mutual

def goodB : Json → Bool
  | .str s => goodStrB s
  | .int n => decide (-9223372036854775808 ≤ n) && decide (n < 9223372036854775808)
  | .arr vs => goodListB vs
  | .obj ps => keysSortedB ps && goodPairsB ps

def goodListB : List Json → Bool
  | [] => true
  | v :: vs => goodB v && goodListB vs

def goodPairsB : List (List Char × Json) → Bool
  | [] => true
  | (k, v) :: ps => goodStrB k && goodB v && goodPairsB ps

end

/-! Fuel accounting: `fuelNeeded v` bounds the fuel the decoder consumes on
`encode v`. -/

mutual

def fuelNeeded : Json → Nat
  | .str _ => 1
  | .int _ => 1
  | .arr vs => listNeeded vs + 1
  | .obj ps => dictNeeded ps + 1

def listNeeded : List Json → Nat
  | [] => 1
  | v :: vs => fuelNeeded v + 1 + listNeeded vs

def dictNeeded : List (List Char × Json) → Nat
  | [] => 1
  | (_, v) :: ps => fuelNeeded v + 2 + dictNeeded ps

end

/-! # Byte-level lemmas -/

theorem charBytes_pos (c : Char) : 0 < charBytes c := by
  unfold charBytes; split <;> [skip; split <;> [skip; split]] <;> omega

theorem charBytes_ascii {c : Char} (h : c.toNat < 128) : charBytes c = 1 := by
  unfold charBytes; rw [if_pos h]

theorem byteLen_append (a b : List Char) :
    byteLen (a ++ b) = byteLen a + byteLen b := by
  unfold byteLen; rw [List.map_append, List.sum_append]

theorem byteLen_cons (c : Char) (s : List Char) :
    byteLen (c :: s) = charBytes c + byteLen s := by
  unfold byteLen; rw [List.map_cons, List.sum_cons]

theorem byteLen_nil : byteLen [] = 0 := rfl

theorem byteLen_ascii {s : List Char} (h : AsciiStr s) : byteLen s = s.length := by
  induction s with
  | nil => rfl
  | cons c t ih =>
    rw [byteLen_cons, charBytes_ascii (h c (by simp)), List.length_cons,
      ih (fun x hx => h x (by simp [hx]))]
    omega

theorem asciiStr_append {a b : List Char} (ha : AsciiStr a) (hb : AsciiStr b) :
    AsciiStr (a ++ b) := by
  intro c hc
  rcases List.mem_append.mp hc with h | h
  · exact ha c h
  · exact hb c h

theorem asciiStr_of_append_left {a b : List Char} (h : AsciiStr (a ++ b)) :
    AsciiStr a := fun c hc => h c (List.mem_append.mpr (Or.inl hc))

theorem asciiStr_of_append_right {a b : List Char} (h : AsciiStr (a ++ b)) :
    AsciiStr b := fun c hc => h c (List.mem_append.mpr (Or.inr hc))

theorem asciiStr_drop {s : List Char} (h : AsciiStr s) (n : Nat) :
    AsciiStr (s.drop n) := fun c hc => h c (List.mem_of_mem_drop hc)

theorem byteDrop_zero (s : List Char) : byteDrop s 0 = some s := by
  cases s <;> rfl

theorem byteTake_zero (s : List Char) : byteTake s 0 = some [] := by
  cases s <;> rfl

theorem byteDrop_append (a b : List Char) :
    byteDrop (a ++ b) (byteLen a) = some b := by
  induction a with
  | nil => exact byteDrop_zero b
  | cons c t ih =>
    have hpos := charBytes_pos c
    rw [List.cons_append, byteLen_cons]
    obtain ⟨k, hk⟩ : ∃ k, charBytes c + byteLen t = k + 1 :=
      ⟨charBytes c + byteLen t - 1, by omega⟩
    rw [hk]; unfold byteDrop
    rw [if_pos (by omega)]
    have hkk : k + 1 - charBytes c = byteLen t := by omega
    rw [hkk, ih]

theorem byteTake_append (a b : List Char) :
    byteTake (a ++ b) (byteLen a) = some a := by
  induction a with
  | nil => exact byteTake_zero b
  | cons c t ih =>
    have hpos := charBytes_pos c
    rw [List.cons_append, byteLen_cons]
    obtain ⟨k, hk⟩ : ∃ k, charBytes c + byteLen t = k + 1 :=
      ⟨charBytes c + byteLen t - 1, by omega⟩
    rw [hk]; unfold byteTake
    rw [if_pos (by omega)]
    have hkk : k + 1 - charBytes c = byteLen t := by omega
    rw [hkk, ih]
    rfl

theorem byteFind_append {c : Char} {a : List Char} (h : c ∉ a) (b : List Char) :
    byteFind (a ++ c :: b) c = some (byteLen a) := by
  induction a with
  | nil => simp [byteFind, byteLen]
  | cons x t ih =>
    have hx : x ≠ c := fun hxc => h (by simp [hxc])
    rw [List.cons_append]; unfold byteFind
    rw [if_neg hx, ih (fun hm => h (by simp [hm]))]
    rw [byteLen_cons]
    rfl

theorem byteFind_not_mem {c : Char} {s : List Char} (h : c ∉ s) :
    byteFind s c = none := by
  induction s with
  | nil => rfl
  | cons x t ih =>
    have hx : x ≠ c := fun hxc => h (by simp [hxc])
    unfold byteFind
    rw [if_neg hx, ih (fun hm => h (by simp [hm]))]
    rfl

theorem byteDrop_ascii {s : List Char} (h : AsciiStr s) {n : Nat}
    (hn : n ≤ s.length) : byteDrop s n = some (s.drop n) := by
  induction s generalizing n with
  | nil =>
    have hn0 : n = 0 := by simpa using hn
    subst hn0; rfl
  | cons c t ih =>
    match n with
    | 0 => rfl
    | n+1 =>
      have hc : charBytes c = 1 := charBytes_ascii (h c (by simp))
      unfold byteDrop
      rw [if_pos (by omega)]
      have hn1 : n + 1 - charBytes c = n := by omega
      rw [hn1, List.drop_succ_cons]
      exact ih (fun x hx => h x (by simp [hx])) (by simpa using hn)

theorem getElem?_of_drop {s : List Char} {idx : Nat} {x : Char} {t : List Char}
    (h : s.drop idx = x :: t) : s[idx]? = some x := by
  induction s generalizing idx with
  | nil => simp at h
  | cons c r ih =>
    match idx with
    | 0 => simp_all
    | idx+1 =>
      rw [List.drop_succ_cons] at h
      simpa using ih h

theorem byteSlice_spec (a s b : List Char) :
    byteSlice (a ++ s ++ b) (byteLen a) (byteLen a + byteLen s) = some s := by
  unfold byteSlice
  rw [if_pos (by omega), List.append_assoc, byteDrop_append]
  have hadd : byteLen a + byteLen s - byteLen a = byteLen s := by omega
  rw [Option.some_bind, hadd, byteTake_append]

/-! # Digit and parsing lemmas -/

theorem digitChar_toNat {d : Nat} (h : d < 10) :
    (Nat.digitChar d).toNat = 48 + d := by
  interval_cases d <;> decide

theorem digitChar_isDigit {d : Nat} (h : d < 10) :
    (Nat.digitChar d).isDigit = true := by
  interval_cases d <;> decide

theorem isDigit_ne {c t : Char} (hc : c.isDigit = true) (ht : t.isDigit = false) :
    c ≠ t := by
  intro he; rw [he] at hc; rw [hc] at ht; cases ht

theorem isDigit_toNat_lt {c : Char} (hc : c.isDigit = true) : c.toNat < 128 := by
  simp [Char.isDigit] at hc
  have h2 : c.toNat ≤ 57 := hc.2
  omega

theorem digitsVal_append (xs : List Char) (c : Char) :
    digitsVal (xs ++ [c]) = digitsVal xs * 10 + (c.toNat - 48) := by
  unfold digitsVal
  rw [List.foldl_append]
  rfl

theorem natCharsAux_digits {fuel n : Nat} :
    ∀ c ∈ natCharsAux fuel n, c.isDigit = true := by
  induction fuel generalizing n with
  | zero => intro c hc; cases hc
  | succ fuel ih =>
    intro c hc
    unfold natCharsAux at hc
    by_cases hn : n = 0
    · rw [if_pos hn] at hc; cases hc
    · rw [if_neg hn] at hc
      rcases List.mem_append.mp hc with h | h
      · exact ih c h
      · have hd : c = Nat.digitChar (n % 10) := by simpa using h
        rw [hd]; exact digitChar_isDigit (Nat.mod_lt _ (by omega))

theorem natCharsAux_val {fuel n : Nat} (h : n ≤ fuel) :
    digitsVal (natCharsAux fuel n) = n := by
  induction fuel generalizing n with
  | zero =>
    have : n = 0 := by omega
    subst this; rfl
  | succ fuel ih =>
    unfold natCharsAux
    by_cases hn : n = 0
    · rw [if_pos hn]; subst hn; rfl
    · rw [if_neg hn, digitsVal_append,
        ih (by omega), digitChar_toNat (Nat.mod_lt _ (by omega))]
      omega

theorem natChars_digits {n : Nat} : ∀ c ∈ natChars n, c.isDigit = true := by
  intro c hc
  unfold natChars at hc
  by_cases hn : n = 0
  · rw [if_pos hn] at hc
    have : c = '0' := by simpa using hc
    rw [this]; decide
  · rw [if_neg hn] at hc
    exact natCharsAux_digits c hc

theorem natChars_ne_nil (n : Nat) : natChars n ≠ [] := by
  unfold natChars
  by_cases hn : n = 0
  · rw [if_pos hn]; simp
  · rw [if_neg hn]
    obtain ⟨f, hf⟩ : ∃ f, n = f + 1 := ⟨n - 1, by omega⟩
    rw [hf]
    unfold natCharsAux
    rw [if_neg (by omega)]
    simp

theorem natChars_ascii {n : Nat} : AsciiStr (natChars n) :=
  fun c hc => isDigit_toNat_lt (natChars_digits c hc)

theorem digitsVal_natChars (n : Nat) : digitsVal (natChars n) = n := by
  unfold natChars
  by_cases hn : n = 0
  · rw [if_pos hn]; subst hn; rfl
  · rw [if_neg hn]; exact natCharsAux_val (le_refl n)

theorem parseDigits_natChars (n : Nat) : parseDigits (natChars n) = some n := by
  have hall : (natChars n).all Char.isDigit = true :=
    List.all_eq_true.mpr (fun c hc => natChars_digits c hc)
  have hval := digitsVal_natChars n
  rcases hne : natChars n with _ | ⟨c, rest⟩
  · exact absurd hne (natChars_ne_nil n)
  · rw [hne] at hall hval
    unfold parseDigits
    rw [hall, if_pos rfl, hval]

theorem rustParseNat_natChars {n : Nat} (h : n < 18446744073709551616) :
    rustParseNat (natChars n) = some n := by
  unfold rustParseNat
  rcases hne : natChars n with _ | ⟨c, rest⟩
  · exact absurd hne (natChars_ne_nil n)
  · have hc : c.isDigit = true := natChars_digits c (by rw [hne]; simp)
    have hcp : ¬ (c = '+') := isDigit_ne hc (by decide)
    simp only [hcp, if_false, ← hne, parseDigits_natChars, Option.some_bind]
    rw [if_pos h]

theorem rustParseInt_intChars {n : Int}
    (hlo : -9223372036854775808 ≤ n) (hhi : n < 9223372036854775808) :
    rustParseInt (intChars n) = some n := by
  unfold intChars
  by_cases hneg : n < 0
  · rw [if_pos hneg]
    simp only [rustParseInt]
    rw [if_neg (by decide : ¬ (('-' : Char) = '+')), if_pos trivial]
    rw [parseDigits_natChars, Option.some_bind]
    rw [if_pos (by omega)]
    congr 1
    omega
  · rw [if_neg hneg]
    rcases hne : natChars n.toNat with _ | ⟨c, rest⟩
    · exact absurd hne (natChars_ne_nil _)
    · have hc : c.isDigit = true := natChars_digits c (by rw [hne]; simp)
      have hcp : ¬ (c = '+') := isDigit_ne hc (by decide)
      have hcm : ¬ (c = '-') := isDigit_ne hc (by decide)
      simp only [rustParseInt]
      rw [if_neg hcp, if_neg hcm, ← hne, parseDigits_natChars, Option.some_bind]
      rw [if_pos (by omega)]
      congr 1
      omega

/-! # Lexicographic order lemmas -/

theorem lexLt_irrefl (a : List Char) : lexLt a a = false := by
  induction a with
  | nil => rfl
  | cons c t ih =>
    unfold lexLt
    rw [if_neg (lt_irrefl _), if_pos rfl, ih]

theorem lexLt_asymm {a b : List Char} (h : lexLt a b = true) :
    lexLt b a = false := by
  induction a generalizing b with
  | nil =>
    cases b with
    | nil => exact absurd h (by rw [lexLt]; simp)
    | cons x t => rfl
  | cons c t ih =>
    cases b with
    | nil => exact absurd h (by rw [lexLt]; simp)
    | cons x u =>
      unfold lexLt at h ⊢
      by_cases h1 : c.toNat < x.toNat
      · rw [if_neg (by omega), if_neg (by omega)]
      · rw [if_neg h1] at h
        by_cases h2 : c.toNat = x.toNat
        · rw [if_pos h2] at h
          rw [if_neg (by omega), if_pos (by omega)]
          exact ih h
        · rw [if_neg h2] at h; cases h

theorem lexLt_ne {a b : List Char} (h : lexLt a b = true) : a ≠ b := by
  intro he; rw [he, lexLt_irrefl] at h; cases h

theorem mapInsert_append {m : List (List Char × Json)} {k : List Char} (v : Json)
    (h : ∀ p ∈ m, lexLt p.1 k = true) :
    mapInsert m k v = m ++ [(k, v)] := by
  induction m with
  | nil => rfl
  | cons p rest ih =>
    obtain ⟨k', v'⟩ := p
    have hk' : lexLt k' k = true := h (k', v') (by simp)
    unfold mapInsert
    rw [if_neg (by rw [lexLt_asymm hk']; simp),
      if_neg (Ne.symm (lexLt_ne hk')), ih (fun q hq => h q (by simp [hq]))]
    rfl

/-! # Structural induction for the nested `Json` type -/

theorem json_induction (P : Json → Prop)
    (hstr : ∀ s, P (Json.str s)) (hint : ∀ n, P (Json.int n))
    (harr : ∀ vs, (∀ v ∈ vs, P v) → P (Json.arr vs))
    (hobj : ∀ ps, (∀ p ∈ ps, P p.2) → P (Json.obj ps)) : ∀ v, P v :=
  @Json.rec P (fun vs => ∀ v ∈ vs, P v) (fun ps => ∀ p ∈ ps, P p.2)
    (fun p => P p.2)
    hstr hint harr hobj
    (by intro v hv; cases hv)
    (by
      intro h t hh ht v hv
      rcases List.mem_cons.mp hv with rfl | hv
      · exact hh
      · exact ht v hv)
    (by intro p hp; cases hp)
    (by
      intro h t hh ht p hp
      rcases List.mem_cons.mp hp with rfl | hp
      · exact hh
      · exact ht p hp)
    (by intro k v hv; exact hv)

/-! # Unfolding lemmas for the invariant predicate -/

theorem goodStrB_ascii {s : List Char} (h : goodStrB s = true) : AsciiStr s := by
  have h1 := ((Bool.and_eq_true _ _).mp h).1
  intro c hc
  have := List.all_eq_true.mp h1 c hc
  exact of_decide_eq_true this

theorem goodStrB_lt {s : List Char} (h : goodStrB s = true) :
    s.length < 18446744073709551616 := by
  have h2 := ((Bool.and_eq_true _ _).mp h).2
  exact of_decide_eq_true h2

theorem goodB_arr {vs : List Json} (h : goodB (Json.arr vs) = true) :
    goodListB vs = true := h

theorem goodB_obj {ps : List (List Char × Json)} (h : goodB (Json.obj ps) = true) :
    keysSortedB ps = true ∧ goodPairsB ps = true := (Bool.and_eq_true _ _).mp h

theorem goodListB_cons {v : Json} {vs : List Json}
    (h : goodListB (v :: vs) = true) : goodB v = true ∧ goodListB vs = true :=
  (Bool.and_eq_true _ _).mp h

theorem goodPairsB_cons {k : List Char} {v : Json} {ps : List (List Char × Json)}
    (h : goodPairsB ((k, v) :: ps) = true) :
    goodStrB k = true ∧ goodB v = true ∧ goodPairsB ps = true := by
  have h1 := (Bool.and_eq_true _ _).mp h
  exact ⟨((Bool.and_eq_true _ _).mp h1.1).1, ((Bool.and_eq_true _ _).mp h1.1).2, h1.2⟩

theorem keysSortedB_cons {p : List Char × Json} {rest : List (List Char × Json)}
    (h : keysSortedB (p :: rest) = true) :
    (∀ q ∈ rest, lexLt p.1 q.1 = true) ∧ keysSortedB rest := by
  have h1 := (Bool.and_eq_true _ _).mp h
  exact ⟨fun q hq => List.all_eq_true.mp h1.1 q hq, h1.2⟩

/-! # The encoding of a good value is ASCII -/

theorem asciiStr_cons {c : Char} {s : List Char} (hc : c.toNat < 128)
    (hs : AsciiStr s) : AsciiStr (c :: s) := by
  intro x hx
  rcases List.mem_cons.mp hx with rfl | hx
  · exact hc
  · exact hs x hx

theorem asciiStr_strEnc {s : List Char} (hs : AsciiStr s) :
    AsciiStr (strEnc s) := by
  unfold strEnc
  exact asciiStr_append natChars_ascii (asciiStr_cons (by decide) hs)

theorem intChars_elem {n : Int} : ∀ c ∈ intChars n, c.isDigit = true ∨ c = '-' := by
  intro c hc
  unfold intChars at hc
  by_cases hneg : n < 0
  · rw [if_pos hneg] at hc
    rcases List.mem_cons.mp hc with rfl | hc
    · exact Or.inr rfl
    · exact Or.inl (natChars_digits c hc)
  · rw [if_neg hneg] at hc
    exact Or.inl (natChars_digits c hc)

theorem intChars_ascii {n : Int} : AsciiStr (intChars n) := by
  intro c hc
  rcases intChars_elem c hc with h | rfl
  · exact isDigit_toNat_lt h
  · decide

theorem ascii_encode : ∀ v, goodB v = true → AsciiStr (encode v) := by
  apply json_induction (fun v => goodB v = true → AsciiStr (encode v))
  · intro s h
    exact asciiStr_strEnc (goodStrB_ascii h)
  · intro n _
    show AsciiStr ('i' :: (intChars n ++ ['e']))
    exact asciiStr_cons (by decide)
      (asciiStr_append intChars_ascii (by intro c hc; simp at hc; rw [hc]; decide))
  · intro vs ih h
    show AsciiStr ('l' :: (encodeList vs ++ ['e']))
    refine asciiStr_cons (by decide) (asciiStr_append ?_ ?_)
    · have hvs := goodB_arr h
      clear h
      induction vs with
      | nil => intro c hc; cases hc
      | cons v t iht =>
        obtain ⟨hv, ht⟩ := goodListB_cons hvs
        show AsciiStr (encode v ++ encodeList t)
        exact asciiStr_append (ih v (by simp) hv)
          (iht (fun x hx hgx => ih x (by simp [hx]) hgx) ht)
    · intro c hc; simp at hc; rw [hc]; decide
  · intro ps ih h
    show AsciiStr ('d' :: (encodePairs ps ++ ['e']))
    refine asciiStr_cons (by decide) (asciiStr_append ?_ ?_)
    · have hps := (goodB_obj h).2
      clear h
      induction ps with
      | nil => intro c hc; cases hc
      | cons p t iht =>
        obtain ⟨k, v⟩ := p
        obtain ⟨hk, hv, ht⟩ := goodPairsB_cons hps
        show AsciiStr ((natChars (byteLen k) ++ ':' :: k) ++ (encode v ++ encodePairs t))
        refine asciiStr_append (asciiStr_append natChars_ascii
          (asciiStr_cons (by decide) (goodStrB_ascii hk))) (asciiStr_append ?_ ?_)
        · exact ih (k, v) (by simp) hv
        · exact iht (fun x hx hgx => ih x (by simp [hx]) hgx) ht
    · intro c hc; simp at hc; rw [hc]; decide

/-! # Decoding an encoded string / integer -/

theorem byteLen_singleton (c : Char) : byteLen [c] = charBytes c := by
  simp [byteLen]

theorem byteLen_strEnc (s : List Char) :
    byteLen (strEnc s) = byteLen (natChars (byteLen s)) + 1 + byteLen s := by
  unfold strEnc
  rw [byteLen_append, byteLen_cons]
  have hc : charBytes ':' = 1 := by decide
  omega

theorem decodeF_strEnc (s rest : List Char)
    (hlen : byteLen s < 18446744073709551616) (fuel : Nat) :
    decodeF (fuel + 1) (strEnc s ++ rest) = some (Json.str s, byteLen (strEnc s)) := by
  obtain ⟨c, ds, hne⟩ : ∃ c ds, natChars (byteLen s) = c :: ds := by
    rcases h : natChars (byteLen s) with _ | ⟨c, ds⟩
    · exact absurd h (natChars_ne_nil _)
    · exact ⟨c, ds, rfl⟩
  have hdig : c.isDigit = true := natChars_digits c (by rw [hne]; simp)
  have hshape : strEnc s ++ rest = c :: (ds ++ ':' :: (s ++ rest)) := by
    unfold strEnc; rw [hne]; simp
  have hlist : c :: (ds ++ ':' :: (s ++ rest)) = natChars (byteLen s) ++ ':' :: (s ++ rest) := by
    rw [hne]; simp
  have hcolon : (':' : Char) ∉ natChars (byteLen s) :=
    fun hm => isDigit_ne (natChars_digits ':' hm) (by decide) rfl
  have hfind : byteFind (natChars (byteLen s) ++ ':' :: (s ++ rest)) ':'
      = some (byteLen (natChars (byteLen s))) := byteFind_append hcolon _
  have htake : byteTake (natChars (byteLen s) ++ ':' :: (s ++ rest))
      (byteLen (natChars (byteLen s))) = some (natChars (byteLen s)) :=
    byteTake_append _ _
  have htot : byteLen (natChars (byteLen s) ++ ':' :: (s ++ rest))
      = byteLen (natChars (byteLen s)) + 1 + byteLen s + byteLen rest := by
    rw [byteLen_append, byteLen_cons, byteLen_append]
    have hc : charBytes ':' = 1 := by decide
    omega
  have hslice : byteSlice (natChars (byteLen s) ++ ':' :: (s ++ rest))
      (byteLen (natChars (byteLen s)) + 1)
      (byteLen (natChars (byteLen s)) + 1 + byteLen s) = some s := by
    have e1 : natChars (byteLen s) ++ ':' :: (s ++ rest)
        = (natChars (byteLen s) ++ [':']) ++ s ++ rest := by simp
    have e2 : byteLen (natChars (byteLen s) ++ [':'])
        = byteLen (natChars (byteLen s)) + 1 := by
      rw [byteLen_append, byteLen_singleton]
      have hc : charBytes ':' = 1 := by decide
      omega
    have := byteSlice_spec (natChars (byteLen s) ++ [':']) s rest
    rw [e2] at this
    rw [e1]
    exact this
  rw [hshape]
  simp only [decodeF]
  rw [if_pos hdig]
  simp only [hlist, hfind, htake, rustParseNat_natChars hlen]
  rw [if_neg (by rw [htot]; omega), hslice, byteLen_strEnc]

theorem byteLen_intEnc (n : Int) :
    byteLen (encode (Json.int n)) = byteLen (intChars n) + 2 := by
  show byteLen ('i' :: (intChars n ++ ['e'])) = _
  rw [byteLen_cons, byteLen_append, byteLen_singleton]
  have h1 : charBytes 'i' = 1 := by decide
  have h2 : charBytes 'e' = 1 := by decide
  omega

theorem decodeF_intEnc (n : Int) (rest : List Char)
    (hlo : -9223372036854775808 ≤ n) (hhi : n < 9223372036854775808) (fuel : Nat) :
    decodeF (fuel + 1) (encode (Json.int n) ++ rest)
      = some (Json.int n, byteLen (encode (Json.int n))) := by
  have hshape : encode (Json.int n) ++ rest = 'i' :: (intChars n ++ 'e' :: rest) := by
    show ('i' :: (intChars n ++ ['e'])) ++ rest = _
    simp
  have hmem : ('e' : Char) ∉ 'i' :: intChars n := by
    intro hm
    rcases List.mem_cons.mp hm with he | he
    · cases he
    · rcases intChars_elem 'e' he with h | h
      · exact isDigit_ne h (by decide) rfl
      · cases h
  have hfind : byteFind ('i' :: (intChars n ++ 'e' :: rest)) 'e'
      = some (1 + byteLen (intChars n)) := by
    have : ('i' :: (intChars n ++ 'e' :: rest)) = ('i' :: intChars n) ++ 'e' :: rest := by
      simp
    rw [this, byteFind_append hmem, byteLen_cons]
    have hci : charBytes 'i' = 1 := by decide
    rw [hci]
  have hslice : byteSlice ('i' :: (intChars n ++ 'e' :: rest)) 1
      (1 + byteLen (intChars n)) = some (intChars n) := by
    have e1 : 'i' :: (intChars n ++ 'e' :: rest)
        = ['i'] ++ intChars n ++ ('e' :: rest) := by simp
    have e2 : byteLen ['i'] = 1 := by
      rw [byteLen_singleton]; decide
    have := byteSlice_spec ['i'] (intChars n) ('e' :: rest)
    rw [e2] at this
    rw [e1]
    exact this
  rw [hshape]
  simp only [decodeF]
  rw [if_neg (by decide : ¬ (('i' : Char).isDigit = true)), if_pos (trivial : True)]
  simp only [hfind, hslice, rustParseInt_intChars hlo hhi]
  rw [byteLen_intEnc]
  have harith : byteLen (intChars n) + 2 = 1 + byteLen (intChars n) + 1 := by omega
  rw [harith]

/-! # The round-trip loop lemmas -/

/-- The decoder, given enough fuel, consumes exactly the encoding of `v`
(in any ASCII continuation) and returns `v`. -/
def DecOK (v : Json) : Prop :=
  ∀ rest fuel, AsciiStr rest → fuelNeeded v ≤ fuel →
    decodeF fuel (encode v ++ rest) = some (v, byteLen (encode v))

theorem fuelNeeded_pos (v : Json) : 1 ≤ fuelNeeded v := by
  cases v <;> simp [fuelNeeded]

theorem encode_head : ∀ v : Json, ∃ c t, encode v = c :: t ∧
    (c.isDigit = true ∨ c = 'i' ∨ c = 'l' ∨ c = 'd') := by
  intro v
  cases v with
  | str s =>
    obtain ⟨c, ds, hne⟩ : ∃ c ds, natChars (byteLen s) = c :: ds := by
      rcases h : natChars (byteLen s) with _ | ⟨c, ds⟩
      · exact absurd h (natChars_ne_nil _)
      · exact ⟨c, ds, rfl⟩
    refine ⟨c, ds ++ ':' :: s, ?_, Or.inl (natChars_digits c (by rw [hne]; simp))⟩
    show strEnc s = _
    unfold strEnc
    rw [hne]
    simp
  | int n => exact ⟨'i', _, rfl, Or.inr (Or.inl rfl)⟩
  | arr vs => exact ⟨'l', _, rfl, Or.inr (Or.inr (Or.inl rfl))⟩
  | obj ps => exact ⟨'d', _, rfl, Or.inr (Or.inr (Or.inr rfl))⟩

theorem encode_head_ne_e {v : Json} {c : Char} {t : List Char}
    (h : encode v = c :: t) : c ≠ 'e' := by
  obtain ⟨c', t', h', hc'⟩ := encode_head v
  rw [h] at h'
  injection h' with h1 h2
  subst h1
  rcases hc' with hd | rfl | rfl | rfl
  · exact isDigit_ne hd (by decide)
  · decide
  · decide
  · decide

theorem idx_lt_of_drop_cons {s : List Char} {idx : Nat} {x : Char} {t : List Char}
    (h : s.drop idx = x :: t) : idx < s.length := by
  have hl := congrArg List.length h
  rw [List.length_drop] at hl
  simp at hl
  omega

theorem drop_of_drop_append {s : List Char} {idx : Nat} {a b : List Char}
    (h : s.drop idx = a ++ b) : s.drop (idx + a.length) = b := by
  have h2 := congrArg (List.drop a.length) h
  rw [List.drop_drop] at h2
  rw [h2, List.drop_left]

theorem decodeListF_spec :
    ∀ (vs : List Json) (s : List Char) (idx : Nat) (acc : List Json)
      (rest : List Char) (fuel : Nat),
      AsciiStr s →
      (∀ v ∈ vs, DecOK v) →
      goodListB vs = true →
      s.drop idx = encodeList vs ++ 'e' :: rest →
      listNeeded vs ≤ fuel →
      decodeListF fuel s idx acc
        = some (acc ++ vs, idx + (encodeList vs).length + 1) := by
  intro vs
  induction vs with
  | nil =>
    intro s idx acc rest fuel hs _ _ hdrop hfuel
    obtain ⟨f, rfl⟩ : ∃ f, fuel = f + 1 :=
      ⟨fuel - 1, by simp [listNeeded] at hfuel; omega⟩
    simp only [encodeList, List.nil_append] at hdrop
    have hget := getElem?_of_drop hdrop
    simp only [decodeListF, hget]
    rw [if_pos (trivial : True)]
    simp [encodeList]
  | cons v vs ih =>
    intro s idx acc rest fuel hs hdec hgood hdrop hfuel
    obtain ⟨hv, hvs⟩ := goodListB_cons hgood
    have hfn := fuelNeeded_pos v
    simp only [listNeeded] at hfuel
    obtain ⟨f, rfl⟩ : ∃ f, fuel = f + 1 := ⟨fuel - 1, by omega⟩
    obtain ⟨c, t, hct, _⟩ := encode_head v
    have hdrop1 : s.drop idx = encode v ++ (encodeList vs ++ 'e' :: rest) := by
      rw [hdrop]
      simp [encodeList]
    have hdropc : s.drop idx = c :: (t ++ (encodeList vs ++ 'e' :: rest)) := by
      rw [hdrop1, hct]
      simp
    have hget := getElem?_of_drop hdropc
    have hne : c ≠ 'e' := encode_head_ne_e hct
    have hlt : idx < s.length := idx_lt_of_drop_cons hdropc
    have hbd : byteDrop s idx = some (s.drop idx) := byteDrop_ascii hs (le_of_lt hlt)
    have hsub_ascii : AsciiStr (s.drop idx) := asciiStr_drop hs idx
    have hrest2 : AsciiStr (encodeList vs ++ 'e' :: rest) := by
      rw [hdrop1] at hsub_ascii
      exact asciiStr_of_append_right hsub_ascii
    have hvdec : decodeF f (s.drop idx) = some (v, byteLen (encode v)) := by
      rw [hdrop1]
      exact hdec v (by simp) _ _ hrest2 (by omega)
    have henc_ascii : AsciiStr (encode v) := by
      rw [hdrop1] at hsub_ascii
      exact asciiStr_of_append_left hsub_ascii
    have hlenv : byteLen (encode v) = (encode v).length := byteLen_ascii henc_ascii
    rw [hlenv] at hvdec
    have hdrop2 : s.drop (idx + (encode v).length) = encodeList vs ++ 'e' :: rest :=
      drop_of_drop_append hdrop1
    have hrec := ih s (idx + (encode v).length) (acc ++ [v]) rest f hs
      (fun x hx => hdec x (by simp [hx])) hvs hdrop2 (by omega)
    simp only [decodeListF, hget, if_neg hne, hbd, hvdec, hrec]
    have harith : idx + (encode v).length + (encodeList vs).length + 1
        = idx + (encodeList (v :: vs)).length + 1 := by
      simp only [encodeList, List.length_append]
      omega
    rw [harith]
    simp

theorem encodePairs_cons (k : List Char) (v : Json) (ps : List (List Char × Json)) :
    encodePairs ((k, v) :: ps) = strEnc k ++ (encode v ++ encodePairs ps) := rfl

theorem decodeDictF_spec :
    ∀ (ps : List (List Char × Json)) (s : List Char) (idx : Nat)
      (m : List (List Char × Json)) (rest : List Char) (fuel : Nat),
      AsciiStr s →
      (∀ p ∈ ps, DecOK p.2) →
      goodPairsB ps = true →
      keysSortedB ps = true →
      (∀ q ∈ m, ∀ p ∈ ps, lexLt q.1 p.1 = true) →
      s.drop idx = encodePairs ps ++ 'e' :: rest →
      dictNeeded ps ≤ fuel →
      decodeDictF fuel s idx m
        = some (m ++ ps, idx + (encodePairs ps).length + 1) := by
  intro ps
  induction ps with
  | nil =>
    intro s idx m rest fuel hs _ _ _ _ hdrop hfuel
    obtain ⟨f, rfl⟩ : ∃ f, fuel = f + 1 :=
      ⟨fuel - 1, by simp [dictNeeded] at hfuel; omega⟩
    simp only [encodePairs, List.nil_append] at hdrop
    have hget := getElem?_of_drop hdrop
    simp only [decodeDictF, hget]
    rw [if_pos (trivial : True)]
    simp [encodePairs]
  | cons p ps ih =>
    obtain ⟨k, v⟩ := p
    intro s idx m rest fuel hs hdec hgood hsort hbel hdrop hfuel
    obtain ⟨hk, hv, hps⟩ := goodPairsB_cons hgood
    obtain ⟨hhead, htail⟩ := keysSortedB_cons hsort
    have hfn := fuelNeeded_pos v
    simp only [dictNeeded] at hfuel
    obtain ⟨f, rfl⟩ : ∃ f, fuel = f + 1 := ⟨fuel - 1, by omega⟩
    obtain ⟨f', rfl⟩ : ∃ f', f = f' + 1 := ⟨f - 1, by omega⟩
    have hkascii : AsciiStr k := goodStrB_ascii hk
    have hklen : byteLen k < 18446744073709551616 := by
      rw [byteLen_ascii hkascii]
      exact goodStrB_lt hk
    -- the overall shape
    have hdrop1 : s.drop idx
        = strEnc k ++ (encode v ++ (encodePairs ps ++ 'e' :: rest)) := by
      rw [hdrop, encodePairs_cons]
      simp
    -- the key string head
    obtain ⟨c, ds, hne⟩ : ∃ c ds, natChars (byteLen k) = c :: ds := by
      rcases h : natChars (byteLen k) with _ | ⟨c, ds⟩
      · exact absurd h (natChars_ne_nil _)
      · exact ⟨c, ds, rfl⟩
    have hcd : c.isDigit = true := natChars_digits c (by rw [hne]; simp)
    have hdropc : s.drop idx = c :: (ds ++ ':' :: k ++ (encode v ++ (encodePairs ps ++ 'e' :: rest))) := by
      rw [hdrop1]
      show strEnc k ++ _ = _
      unfold strEnc
      rw [hne]
      simp
    have hget := getElem?_of_drop hdropc
    have hcne : c ≠ 'e' := isDigit_ne hcd (by decide)
    have hlt : idx < s.length := idx_lt_of_drop_cons hdropc
    have hbd : byteDrop s idx = some (s.drop idx) := byteDrop_ascii hs (le_of_lt hlt)
    -- decode the key
    have hkdec : decodeF (f' + 1) (s.drop idx) = some (Json.str k, byteLen (strEnc k)) := by
      rw [hdrop1]
      exact decodeF_strEnc k _ hklen f'
    have hstrEnc_ascii : AsciiStr (strEnc k) := asciiStr_strEnc hkascii
    have hlenk : byteLen (strEnc k) = (strEnc k).length := byteLen_ascii hstrEnc_ascii
    rw [hlenk] at hkdec
    -- decode the value
    have hdrop2 : s.drop (idx + (strEnc k).length)
        = encode v ++ (encodePairs ps ++ 'e' :: rest) :=
      drop_of_drop_append hdrop1
    have hsub_ascii : AsciiStr (s.drop (idx + (strEnc k).length)) :=
      asciiStr_drop hs _
    have hrest4 : AsciiStr (encodePairs ps ++ 'e' :: rest) := by
      rw [hdrop2] at hsub_ascii
      exact asciiStr_of_append_right hsub_ascii
    have henc_ascii : AsciiStr (encode v) := by
      rw [hdrop2] at hsub_ascii
      exact asciiStr_of_append_left hsub_ascii
    obtain ⟨cv, tv, hctv, _⟩ := encode_head v
    have hlt2 : idx + (strEnc k).length < s.length := by
      apply idx_lt_of_drop_cons (x := cv) (t := tv ++ (encodePairs ps ++ 'e' :: rest))
      rw [hdrop2, hctv]
      simp
    have hbd2 : byteDrop s (idx + (strEnc k).length)
        = some (s.drop (idx + (strEnc k).length)) :=
      byteDrop_ascii hs (le_of_lt hlt2)
    have hvdec : decodeF (f' + 1) (s.drop (idx + (strEnc k).length))
        = some (v, byteLen (encode v)) := by
      rw [hdrop2]
      have hdv : DecOK v := hdec (k, v) (by simp)
      exact hdv _ _ hrest4 (by omega)
    have hlenv : byteLen (encode v) = (encode v).length := byteLen_ascii henc_ascii
    rw [hlenv] at hvdec
    -- the insert is an append
    have hins : mapInsert m k v = m ++ [(k, v)] :=
      mapInsert_append v (fun q hq => hbel q hq (k, v) (by simp))
    -- the recursive call
    have hdrop3 : s.drop (idx + (strEnc k).length + (encode v).length)
        = encodePairs ps ++ 'e' :: rest := drop_of_drop_append hdrop2
    have hbel2 : ∀ q ∈ m ++ [(k, v)], ∀ p ∈ ps, lexLt q.1 p.1 = true := by
      intro q hq p hp
      rcases List.mem_append.mp hq with hq | hq
      · exact hbel q hq p (by simp [hp])
      · have : q = (k, v) := by simpa using hq
        rw [this]
        exact hhead p hp
    have hrec := ih s (idx + (strEnc k).length + (encode v).length) (m ++ [(k, v)])
      rest (f' + 1) hs (fun x hx => hdec x (by simp [hx])) hps htail hbel2 hdrop3
      (by omega)
    have hstep : decodeDictF (f' + 1 + 1) s idx m
        = decodeDictF (f' + 1) s (idx + (strEnc k).length + (encode v).length)
            (m ++ [(k, v)]) := by
      simp only [decodeDictF, hget, if_neg hcne, hbd, hkdec, hbd2, hvdec, hins]
    rw [hstep, hrec]
    have harith : idx + (strEnc k).length + (encode v).length + (encodePairs ps).length + 1
        = idx + (encodePairs ((k, v) :: ps)).length + 1 := by
      rw [encodePairs_cons]
      simp only [List.length_append]
      omega
    rw [harith]
    simp

/-! # The main round-trip lemma (amended to ASCII values) -/

theorem goodListB_mem {vs : List Json} (h : goodListB vs = true) :
    ∀ v ∈ vs, goodB v = true := by
  induction vs with
  | nil => intro v hv; cases hv
  | cons x t ih =>
    obtain ⟨hx, ht⟩ := goodListB_cons h
    intro v hv
    rcases List.mem_cons.mp hv with rfl | hv
    · exact hx
    · exact ih ht v hv

theorem asciiStr_of_cons {c : Char} {s : List Char} (h : AsciiStr (c :: s)) :
    AsciiStr s := fun x hx => h x (by simp [hx])

theorem goodPairsB_mem {ps : List (List Char × Json)} (h : goodPairsB ps = true) :
    ∀ p ∈ ps, goodStrB p.1 = true ∧ goodB p.2 = true := by
  induction ps with
  | nil => intro p hp; cases hp
  | cons q t ih =>
    obtain ⟨k, v⟩ := q
    obtain ⟨hk, hv, ht⟩ := goodPairsB_cons h
    intro p hp
    rcases List.mem_cons.mp hp with rfl | hp
    · exact ⟨hk, hv⟩
    · exact ih ht p hp

theorem decOK_of_good : ∀ v, goodB v = true → DecOK v := by
  apply json_induction (fun v => goodB v = true → DecOK v)
  · -- strings
    intro s hgood rest fuel hrest hfuel
    obtain ⟨f, rfl⟩ : ∃ f, fuel = f + 1 :=
      ⟨fuel - 1, by simp [fuelNeeded] at hfuel; omega⟩
    have hlen : byteLen s < 18446744073709551616 := by
      rw [byteLen_ascii (goodStrB_ascii hgood)]
      exact goodStrB_lt hgood
    exact decodeF_strEnc s rest hlen f
  · -- integers
    intro n hgood rest fuel hrest hfuel
    obtain ⟨f, rfl⟩ : ∃ f, fuel = f + 1 :=
      ⟨fuel - 1, by simp [fuelNeeded] at hfuel; omega⟩
    have h2 := (Bool.and_eq_true _ _).mp hgood
    exact decodeF_intEnc n rest (of_decide_eq_true h2.1) (of_decide_eq_true h2.2) f
  · -- lists
    intro vs ih hgood rest fuel hrest hfuel
    have hvss := goodB_arr hgood
    have hdecs : ∀ v ∈ vs, DecOK v :=
      fun v hv => ih v hv (goodListB_mem hvss v hv)
    simp only [fuelNeeded] at hfuel
    obtain ⟨f, rfl⟩ : ∃ f, fuel = f + 1 := ⟨fuel - 1, by omega⟩
    have hshape : encode (Json.arr vs) ++ rest = 'l' :: (encodeList vs ++ 'e' :: rest) := by
      show ('l' :: (encodeList vs ++ ['e'])) ++ rest = _
      simp
    have hs_ascii : AsciiStr ('l' :: (encodeList vs ++ 'e' :: rest)) := by
      rw [← hshape]
      exact asciiStr_append (ascii_encode _ hgood) hrest
    have hdrop : ('l' :: (encodeList vs ++ 'e' :: rest)).drop 1
        = encodeList vs ++ 'e' :: rest := rfl
    have hloop := decodeListF_spec vs _ 1 [] rest f hs_ascii hdecs hvss hdrop
      (by omega)
    have hl_ascii : AsciiStr (encodeList vs) := by
      have h1 : AsciiStr ('l' :: (encodeList vs ++ ['e'])) := ascii_encode _ hgood
      exact asciiStr_of_append_left (asciiStr_of_cons h1)
    have hblen : byteLen (encode (Json.arr vs)) = 1 + (encodeList vs).length + 1 := by
      show byteLen ('l' :: (encodeList vs ++ ['e'])) = _
      rw [byteLen_cons, byteLen_append, byteLen_singleton, byteLen_ascii hl_ascii]
      have h1 : charBytes 'l' = 1 := by decide
      have h2 : charBytes 'e' = 1 := by decide
      omega
    rw [hshape]
    simp only [decodeF]
    rw [if_neg (by decide : ¬ (('l' : Char).isDigit = true)),
      if_neg (by decide : ¬ (('l' : Char) = 'i'))]
    rw [if_pos (trivial : True)]
    rw [hloop, hblen]
    simp
  · -- dictionaries
    intro ps ih hgood rest fuel hrest hfuel
    obtain ⟨hsort, hpairs⟩ := goodB_obj hgood
    have hdecs : ∀ p ∈ ps, DecOK p.2 :=
      fun p hp => ih p hp (goodPairsB_mem hpairs p hp).2
    simp only [fuelNeeded] at hfuel
    obtain ⟨f, rfl⟩ : ∃ f, fuel = f + 1 := ⟨fuel - 1, by omega⟩
    have hshape : encode (Json.obj ps) ++ rest = 'd' :: (encodePairs ps ++ 'e' :: rest) := by
      show ('d' :: (encodePairs ps ++ ['e'])) ++ rest = _
      simp
    have hs_ascii : AsciiStr ('d' :: (encodePairs ps ++ 'e' :: rest)) := by
      rw [← hshape]
      exact asciiStr_append (ascii_encode _ hgood) hrest
    have hdrop : ('d' :: (encodePairs ps ++ 'e' :: rest)).drop 1
        = encodePairs ps ++ 'e' :: rest := rfl
    have hloop := decodeDictF_spec ps _ 1 [] rest f hs_ascii hdecs hpairs hsort
      (by intro q hq; cases hq) hdrop (by omega)
    have hp_ascii : AsciiStr (encodePairs ps) := by
      have h1 : AsciiStr ('d' :: (encodePairs ps ++ ['e'])) := ascii_encode _ hgood
      exact asciiStr_of_append_left (asciiStr_of_cons h1)
    have hblen : byteLen (encode (Json.obj ps)) = 1 + (encodePairs ps).length + 1 := by
      show byteLen ('d' :: (encodePairs ps ++ ['e'])) = _
      rw [byteLen_cons, byteLen_append, byteLen_singleton, byteLen_ascii hp_ascii]
      have h1 : charBytes 'd' = 1 := by decide
      have h2 : charBytes 'e' = 1 := by decide
      omega
    rw [hshape]
    simp only [decodeF]
    rw [if_neg (by decide : ¬ (('d' : Char).isDigit = true)),
      if_neg (by decide : ¬ (('d' : Char) = 'i')),
      if_neg (by decide : ¬ (('d' : Char) = 'l'))]
    rw [if_pos (trivial : True)]
    rw [hloop, hblen]
    simp

/-! # Fuel bound: the wrapper's fuel `2 * byteLen s + 2` is enough -/

theorem byteLen_pos {s : List Char} (h : s ≠ []) : 1 ≤ byteLen s := by
  cases s with
  | nil => exact absurd rfl h
  | cons c t =>
    rw [byteLen_cons]
    have := charBytes_pos c
    omega

theorem fuelNeeded_le : ∀ v : Json, fuelNeeded v + 1 ≤ 2 * byteLen (encode v) := by
  apply json_induction (fun v => fuelNeeded v + 1 ≤ 2 * byteLen (encode v))
  · intro s
    have h1 : (1 : Nat) ≤ byteLen (natChars (byteLen s)) :=
      byteLen_pos (natChars_ne_nil _)
    have h2 := byteLen_strEnc s
    show fuelNeeded (Json.str s) + 1 ≤ 2 * byteLen (strEnc s)
    simp only [fuelNeeded]
    omega
  · intro n
    have h2 := byteLen_intEnc n
    simp only [fuelNeeded]
    omega
  · intro vs ih
    have hlist : listNeeded vs + 1 ≤ 2 * byteLen (encodeList vs) + 2 := by
      induction vs with
      | nil => simp [listNeeded, encodeList, byteLen]
      | cons v t iht =>
        have hv := ih v (by simp)
        have ht := iht (fun x hx => ih x (by simp [hx]))
        simp only [listNeeded, encodeList]
        rw [byteLen_append]
        omega
    have hb : byteLen (encode (Json.arr vs)) = byteLen (encodeList vs) + 2 := by
      show byteLen ('l' :: (encodeList vs ++ ['e'])) = _
      rw [byteLen_cons, byteLen_append, byteLen_singleton]
      have h1 : charBytes 'l' = 1 := by decide
      have h2 : charBytes 'e' = 1 := by decide
      omega
    simp only [fuelNeeded]
    omega
  · intro ps ih
    have hdict : dictNeeded ps + 1 ≤ 2 * byteLen (encodePairs ps) + 2 := by
      induction ps with
      | nil => simp [dictNeeded, encodePairs, byteLen]
      | cons q t iht =>
        obtain ⟨k, v⟩ := q
        have hv : fuelNeeded v + 1 ≤ 2 * byteLen (encode v) := ih (k, v) (by simp)
        have ht := iht (fun x hx => ih x (by simp [hx]))
        have hk1 : 1 ≤ byteLen (strEnc k) := by
          apply byteLen_pos
          unfold strEnc
          simp
        simp only [dictNeeded, encodePairs_cons]
        rw [byteLen_append, byteLen_append]
        omega
    have hb : byteLen (encode (Json.obj ps)) = byteLen (encodePairs ps) + 2 := by
      show byteLen ('d' :: (encodePairs ps ++ ['e'])) = _
      rw [byteLen_cons, byteLen_append, byteLen_singleton]
      have h1 : charBytes 'd' = 1 := by decide
      have h2 : charBytes 'e' = 1 := by decide
      omega
    simp only [fuelNeeded]
    omega

/-- The amended round-trip law, proved against the source decoder. -/
theorem decode_encode_good (v : Json) (hv : goodB v = true) :
    decode_bencoded_value (encode v) = some (v, byteLen (encode v)) := by
  unfold decode_bencoded_value
  have h1 := fuelNeeded_le v
  have hdec := decOK_of_good v hv [] (2 * byteLen (encode v) + 2)
    (by intro c hc; cases hc) (by omega)
  simpa using hdec

/-! # Piece segmentation (`extract_piece_hashes` from `src/main.rs`)

Rust's `slice::chunks(n)` splits into consecutive windows of `n` elements,
the last possibly shorter; the fuel (initial list length) is always enough
for `n ≥ 1`. -/

def chunksAux : Nat → Nat → List Nat → List (List Nat)
  | 0, _, _ => []
  | _+1, _, [] => []
  | f+1, n, x :: xs => (x :: xs).take n :: chunksAux f n ((x :: xs).drop n)

def chunks (n : Nat) (l : List Nat) : List (List Nat) := chunksAux l.length n l

/-- One `u8` rendered by `format!("\x7b:02x\x7d")`: two lowercase hex digits. -/
def byteHex (b : Nat) : List Char := [Nat.digitChar (b / 16), Nat.digitChar (b % 16)]

def bytesHex (bs : List Nat) : List Char := (bs.map byteHex).flatten

/-- `extract_piece_hashes` from `src/main.rs`; `none` models
`std::process::exit(1)` on a length that is not a multiple of 20. -/
def extract_piece_hashes (pieces : List Nat) : Option (List (List Char)) :=
  if pieces.length % 20 = 0 then some ((chunks 20 pieces).map bytesHex) else none

theorem chunksAux20_flatten : ∀ (f : Nat) (l : List Nat), l.length ≤ f →
    (chunksAux f 20 l).flatten = l := by
  intro f
  induction f with
  | zero =>
    intro l hl
    cases l with
    | nil => rfl
    | cons x xs => simp at hl
  | succ f ih =>
    intro l hl
    cases l with
    | nil => rfl
    | cons x xs =>
      show ((x :: xs).take 20 :: chunksAux f 20 ((x :: xs).drop 20)).flatten = x :: xs
      rw [List.flatten_cons,
        ih ((x :: xs).drop 20) (by rw [List.length_drop]; simp at hl ⊢; omega),
        List.take_append_drop]

theorem chunksAux20_mem_length : ∀ (f : Nat) (l : List Nat) (c : List Nat),
    l.length ≤ f → l.length % 20 = 0 → c ∈ chunksAux f 20 l → c.length = 20 := by
  intro f
  induction f with
  | zero =>
    intro l c _ _ hc
    cases l <;> cases hc
  | succ f ih =>
    intro l c hl hmod hc
    cases l with
    | nil => cases hc
    | cons x xs =>
      have hlen : 20 ≤ (x :: xs).length := by
        have h1 : 0 < (x :: xs).length := by simp
        omega
      rcases List.mem_cons.mp hc with rfl | hc
      · rw [List.length_take]
        omega
      · refine ih _ c ?_ ?_ hc
        · rw [List.length_drop]; omega
        · rw [List.length_drop]; omega

theorem chunksAux20_count : ∀ (f : Nat) (l : List Nat),
    l.length ≤ f → l.length % 20 = 0 →
    (chunksAux f 20 l).length = l.length / 20 := by
  intro f
  induction f with
  | zero =>
    intro l hl _
    cases l with
    | nil => rfl
    | cons x xs => simp at hl
  | succ f ih =>
    intro l hl hmod
    cases l with
    | nil => rfl
    | cons x xs =>
      have hlen : 20 ≤ (x :: xs).length := by
        have h1 : 0 < (x :: xs).length := by simp
        omega
      show (chunksAux f 20 ((x :: xs).drop 20)).length + 1 = (x :: xs).length / 20
      rw [ih _ (by rw [List.length_drop]; omega) (by rw [List.length_drop]; omega),
        List.length_drop]
      omega

/-! # The info digest (`calculate_info_hash` from `src/main.rs`)

The `Info` struct of the source, its bencoding and the hash.  The
serialization (external `serde_bencode` crate) and the hash (external
`sha1` crate) are not in `src/`, so both are modelled from the spec:
the bencoding emits the four fields as a dictionary whose keys
`length < name < piece length < pieces` are already in byte-lexicographic
order (spec §4.2), and the digest is SHA-1, "a cryptographic hash producing
a fixed 20-byte digest" (spec §4.4), implemented here in full. -/

structure Info where
  length : Nat
  name : List Char
  piece_length : Nat
  pieces : List Nat

/-- UTF-8 encoding of one scalar value. -/
def utf8Bytes (c : Char) : List Nat :=
  if c.toNat < 128 then [c.toNat]
  else if c.toNat < 2048 then [192 + c.toNat / 64, 128 + c.toNat % 64]
  else if c.toNat < 65536 then
    [224 + c.toNat / 4096, 128 + c.toNat / 64 % 64, 128 + c.toNat % 64]
  else
    [240 + c.toNat / 262144, 128 + c.toNat / 4096 % 64,
      128 + c.toNat / 64 % 64, 128 + c.toNat % 64]

def strBytes (s : List Char) : List Nat := (s.map utf8Bytes).flatten

/-- Modelled from the spec: a bencoded byte string, `<len>:<bytes>`. -/
def bencBytes (bs : List Nat) : List Nat :=
  (natChars bs.length).map Char.toNat ++ [58] ++ bs

/-- Modelled from the spec: a bencoded unsigned integer, `i<decimal>e`. -/
def bencNat (n : Nat) : List Nat :=
  [105] ++ (natChars n).map Char.toNat ++ [101]

/-- Modelled from the spec: the canonical bencoding of the `info`
dictionary, keys in byte-lexicographic ascending order. -/
def bencodeInfo (i : Info) : List Nat :=
  [100]
  ++ bencBytes (strBytes ['l','e','n','g','t','h']) ++ bencNat i.length
  ++ bencBytes (strBytes ['n','a','m','e']) ++ bencBytes (strBytes i.name)
  ++ bencBytes (strBytes ['p','i','e','c','e',' ','l','e','n','g','t','h'])
  ++ bencNat i.piece_length
  ++ bencBytes (strBytes ['p','i','e','c','e','s']) ++ bencBytes i.pieces
  ++ [101]

/-! SHA-1, over byte lists, all words reduced modulo `2^32`. -/

def w32 (n : Nat) : Nat := n % 4294967296

def rotl (b n : Nat) : Nat := w32 ((n <<< b) ||| (n >>> (32 - b)))

/-- Big-endian bytes of `n`, exactly `k` of them. -/
def beBytes : Nat → Nat → List Nat
  | 0, _ => []
  | k+1, n => beBytes k (n / 256) ++ [n % 256]

/-- Big-endian value of a byte list. -/
def beVal (l : List Nat) : Nat := l.foldl (fun a b => a * 256 + b) 0

/-- Merkle–Damgård padding: `0x80`, zeros, and the 64-bit bit length. -/
def sha1Pad (msg : List Nat) : List Nat :=
  msg ++ [128] ++ List.replicate ((119 - msg.length % 64) % 64) 0
    ++ beBytes 8 (8 * msg.length)

def blockWords (b : List Nat) : List Nat := (chunks 4 b).map beVal

/-- Extend 16 words to 80: `w[i] = rotl1 (w[i-3] ^ w[i-8] ^ w[i-14] ^ w[i-16])`. -/
def extendW (ws : List Nat) : List Nat :=
  (List.range 64).foldl (fun acc _ =>
    acc ++ [rotl 1 ((acc.getD (acc.length - 3) 0) ^^^ (acc.getD (acc.length - 8) 0)
      ^^^ (acc.getD (acc.length - 14) 0) ^^^ (acc.getD (acc.length - 16) 0))]) ws

def sha1F (i b c d : Nat) : Nat :=
  if i < 20 then (b &&& c) ||| ((4294967295 ^^^ b) &&& d)
  else if i < 40 then b ^^^ c ^^^ d
  else if i < 60 then (b &&& c) ||| (b &&& d) ||| (c &&& d)
  else b ^^^ c ^^^ d

def sha1K (i : Nat) : Nat :=
  if i < 20 then 1518500249 else if i < 40 then 1859775393
  else if i < 60 then 2400959708 else 3395469782

/-- One SHA-1 round: state `(a,b,c,d,e)`, input `(round index, word)`. -/
def sha1Step (st : Nat × Nat × Nat × Nat × Nat) (iw : Nat × Nat) :
    Nat × Nat × Nat × Nat × Nat :=
  (w32 (rotl 5 st.1 + sha1F iw.1 st.2.1 st.2.2.1 st.2.2.2.1 + st.2.2.2.2
      + sha1K iw.1 + iw.2),
    st.1, rotl 30 st.2.1, st.2.2.1, st.2.2.2.1)

def sha1Compress (h : Nat × Nat × Nat × Nat × Nat) (block : List Nat) :
    Nat × Nat × Nat × Nat × Nat :=
  let st := (extendW (blockWords block)).enum.foldl sha1Step h
  (w32 (h.1 + st.1), w32 (h.2.1 + st.2.1), w32 (h.2.2.1 + st.2.2.1),
    w32 (h.2.2.2.1 + st.2.2.2.1), w32 (h.2.2.2.2 + st.2.2.2.2))

/-- Modelled from the spec: the fixed 20-byte cryptographic digest (SHA-1). -/
def sha1 (msg : List Nat) : List Nat :=
  let hs := (chunks 64 (sha1Pad msg)).foldl sha1Compress
    (1732584193, 4023233417, 2562383102, 271733878, 3285377520)
  beBytes 4 hs.1 ++ beBytes 4 hs.2.1 ++ beBytes 4 hs.2.2.1
    ++ beBytes 4 hs.2.2.2.1 ++ beBytes 4 hs.2.2.2.2

/-- `calculate_info_hash` from `src/main.rs`: bencode the `info` dictionary,
hash it, render the digest as lowercase hex. -/
def calculate_info_hash (info : Info) : List Char :=
  bytesHex (sha1 (bencodeInfo info))

/-- Lowercase hexadecimal digit: `0`–`9` or `a`–`f`. -/
def isLowerHex (c : Char) : Bool :=
  (48 ≤ c.toNat && c.toNat ≤ 57) || (97 ≤ c.toNat && c.toNat ≤ 102)

theorem beBytes_length (k n : Nat) : (beBytes k n).length = k := by
  induction k generalizing n with
  | zero => rfl
  | succ k ih =>
    show (beBytes k (n / 256) ++ [n % 256]).length = k + 1
    rw [List.length_append, ih]
    rfl

theorem beBytes_lt (k n : Nat) : ∀ b ∈ beBytes k n, b < 256 := by
  induction k generalizing n with
  | zero => intro b hb; cases hb
  | succ k ih =>
    intro b hb
    rcases List.mem_append.mp hb with h | h
    · exact ih (n / 256) b h
    · have : b = n % 256 := by simpa using h
      rw [this]
      omega

theorem sha1_length (msg : List Nat) : (sha1 msg).length = 20 := by
  unfold sha1
  simp only [List.length_append, beBytes_length]

theorem sha1_lt (msg : List Nat) : ∀ b ∈ sha1 msg, b < 256 := by
  unfold sha1
  intro b hb
  simp only [List.mem_append] at hb
  rcases hb with ((((h | h) | h) | h) | h) <;> exact beBytes_lt _ _ b h

theorem digitChar_lowerHex {d : Nat} (h : d < 16) :
    isLowerHex (Nat.digitChar d) = true := by
  interval_cases d <;> decide

theorem byteHex_lowerHex {b : Nat} (h : b < 256) :
    ∀ c ∈ byteHex b, isLowerHex c = true := by
  intro c hc
  unfold byteHex at hc
  rcases List.mem_cons.mp hc with rfl | hc
  · exact digitChar_lowerHex (by omega)
  · have : c = Nat.digitChar (b % 16) := by simpa using hc
    rw [this]
    exact digitChar_lowerHex (by omega)

theorem bytesHex_length (bs : List Nat) : (bytesHex bs).length = 2 * bs.length := by
  induction bs with
  | nil => rfl
  | cons b t ih =>
    show (byteHex b ++ bytesHex t).length = 2 * (t.length + 1)
    rw [List.length_append, ih]
    show 2 + 2 * t.length = 2 * (t.length + 1)
    omega

theorem bytesHex_lowerHex {bs : List Nat} (h : ∀ b ∈ bs, b < 256) :
    (bytesHex bs).all isLowerHex = true := by
  induction bs with
  | nil => rfl
  | cons b t ih =>
    show (byteHex b ++ bytesHex t).all isLowerHex = true
    rw [List.all_append]
    refine (Bool.and_eq_true _ _).mpr ⟨?_, ih (fun x hx => h x (by simp [hx]))⟩
    exact List.all_eq_true.mpr (byteHex_lowerHex (h b (by simp)))

/-! # The claims -/

/-- C1 (counterexample): the round-trip law fails on the source decoder as
stated.  `Json.arr [Json.str ['é']]` satisfies every model invariant (no
maps at all), its encoding is the valid 6-byte document `l2:ée`, yet the
source decoder panics on it — its list loop advances `index` by bytes but
tests the terminator with the character-indexed `safe_char_at`, and char
index 5 is past the 5-character string — so no pair `(v, n)` is returned
at all. -/
theorem claim1_counterexample :
    decode_bencoded_value (encode (Json.arr [Json.str ['é']])) = none := rfl

/-- C1 (amended): for every `Json` value satisfying the model invariants
(integers in signed-64-bit range, map keys unique, already byte-sorted and
of `usize`-representable length) *and whose byte strings are all ASCII* —
the restriction forced by the counterexample — decoding the encoder's
output yields the value back together with the full byte length consumed. -/
theorem claim1_roundtrip_ascii (v : Json) (hv : goodB v = true) :
    decode_bencoded_value (encode v) = some (v, byteLen (encode v)) :=
  decode_encode_good v hv

theorem claim1_roundtrip_ascii_witness :
    goodB (Json.obj [(['c','o','w'], Json.str ['m','o','o']),
      (['s','p','a','m'], Json.arr [Json.int (-42), Json.str []])]) = true
    ∧ decode_bencoded_value (encode (Json.obj [(['c','o','w'], Json.str ['m','o','o']),
        (['s','p','a','m'], Json.arr [Json.int (-42), Json.str []])]))
      = some (Json.obj [(['c','o','w'], Json.str ['m','o','o']),
          (['s','p','a','m'], Json.arr [Json.int (-42), Json.str []])],
        byteLen (encode (Json.obj [(['c','o','w'], Json.str ['m','o','o']),
          (['s','p','a','m'], Json.arr [Json.int (-42), Json.str []])]))) :=
  ⟨by decide, claim1_roundtrip_ascii _ (by decide)⟩

/-- C2: the decoder does *not* operate purely on byte positions.  The valid
bencode document `l2:ée` is 6 bytes but 5 characters; the source's list
loop accumulates a byte offset yet tests it with the character-indexed
`safe_char_at`, so at offset 5 (the byte position of the final `e`) the
character lookup runs off the end and the process panics (modelled as
`none`) instead of decoding the list. -/
theorem claim2_char_position_bug :
    byteLen ['l','2',':','é','e'] = 6
    ∧ (['l','2',':','é','e'] : List Char).length = 5
    ∧ decode_bencoded_value ['l','2',':','é','e'] = none :=
  ⟨by decide, by decide, rfl⟩

/-- C3: on malformed input the source does not propagate an error value —
its return type `(serde_json::Value, usize)` has no error channel at all,
and every failure path is a `panic!`/`unwrap` (modelled as `none`), here
evaluated on the invalid-tag input `x`. -/
theorem claim3_panic_not_error :
    decode_bencoded_value ['x'] = none := rfl

/-- C4: the source does not reject repeated map keys.  On
`d3:foo3:bar3:foo3:baze` it succeeds, silently overwriting `foo ↦ bar`
with `foo ↦ baz` via `BTreeMap::insert`, instead of failing with
`DuplicateKey`; the duplicate-free `d4:spaml1:a1:bee` also succeeds. -/
theorem claim4_duplicate_key_overwritten :
    decode_bencoded_value
        ['d','3',':','f','o','o','3',':','b','a','r','3',':','f','o','o','3',':','b','a','z','e']
      = some (Json.obj [(['f','o','o'], Json.str ['b','a','z'])], 22)
    ∧ decode_bencoded_value
        ['d','4',':','s','p','a','m','l','1',':','a','1',':','b','e','e']
      = some (Json.obj [(['s','p','a','m'],
          Json.arr [Json.str ['a'], Json.str ['b']])], 16) :=
  ⟨rfl, rfl⟩

/-- C5: the source does not enforce the integer grammar.  Rust's
`str::parse::<i64>` accepts leading zeros and `-0`, so `i03e` decodes
successfully to `(3, 4)` instead of failing with `MalformedInteger`, and
`i-0e` decodes to `(0, 4)`. -/
theorem claim5_leading_zero_accepted :
    decode_bencoded_value ['i','0','3','e'] = some (Json.int 3, 4)
    ∧ decode_bencoded_value ['i','-','0','e'] = some (Json.int 0, 4) :=
  ⟨rfl, rfl⟩

/-- C6: byte-string decoding with a declared length exceeding the remaining
bytes fails (the source detects `end_of_str > encoded.len()` and aborts;
the abort is the `none` of the model): for every input formed of a decimal
length prefix, a colon and a body shorter than the declared length, decode
returns nothing. -/
theorem claim6_truncated_input_fails (ds body : List Char) (n : Nat)
    (hne : ds ≠ []) (hdig : ∀ c ∈ ds, c.isDigit = true) (hcolon : ':' ∉ ds)
    (hparse : rustParseNat ds = some n) (hlt : byteLen body < n) :
    decode_bencoded_value (ds ++ ':' :: body) = none := by
  unfold decode_bencoded_value
  obtain ⟨F, hF⟩ : ∃ F, 2 * byteLen (ds ++ ':' :: body) + 2 = F + 1 :=
    ⟨2 * byteLen (ds ++ ':' :: body) + 1, by omega⟩
  rw [hF]
  rcases ds with _ | ⟨c, dt⟩
  · exact absurd rfl hne
  · have hshape : (c :: dt) ++ ':' :: body = c :: (dt ++ ':' :: body) := by simp
    have hlist : c :: (dt ++ ':' :: body) = (c :: dt) ++ ':' :: body := by simp
    have hfind : byteFind ((c :: dt) ++ ':' :: body) ':'
        = some (byteLen (c :: dt)) := byteFind_append hcolon body
    have htake : byteTake ((c :: dt) ++ ':' :: body) (byteLen (c :: dt))
        = some (c :: dt) := byteTake_append _ _
    rw [hshape]
    simp only [decodeF]
    rw [if_pos (hdig c (by simp))]
    simp only [hlist, hfind, htake, hparse]
    rw [if_pos (by
      simp only [byteLen_cons, byteLen_append]
      have hc : charBytes ':' = 1 := by decide
      omega)]

theorem claim6_truncated_input_fails_witness :
    decode_bencoded_value ['5',':','a','b'] = none :=
  claim6_truncated_input_fails ['5'] ['a','b'] 5 (by decide) (by decide)
    (by decide) (by decide) (by decide)

/-- C7: `extract_piece_hashes` fails (exits, modelled as `none`) exactly
when the blob length is not a multiple of 20, and otherwise returns the
hex rendering of the consecutive non-overlapping 20-byte records of the
blob, in original order: the records flatten back to the blob, each is 20
bytes, and there are `length / 20` of them. -/
theorem claim7_segment_pieces (blob : List Nat) :
    (blob.length % 20 ≠ 0 → extract_piece_hashes blob = none)
    ∧ (blob.length % 20 = 0 →
        extract_piece_hashes blob = some ((chunks 20 blob).map bytesHex)
        ∧ (chunks 20 blob).flatten = blob
        ∧ (∀ c ∈ chunks 20 blob, c.length = 20)
        ∧ (chunks 20 blob).length = blob.length / 20) := by
  constructor
  · intro h
    unfold extract_piece_hashes
    rw [if_neg h]
  · intro h
    refine ⟨by unfold extract_piece_hashes; rw [if_pos h], ?_, ?_, ?_⟩
    · exact chunksAux20_flatten _ _ (le_refl _)
    · exact fun c hc => chunksAux20_mem_length _ _ c (le_refl _) h hc
    · exact chunksAux20_count _ _ (le_refl _) h

theorem claim7_segment_pieces_witness :
    extract_piece_hashes (List.replicate 41 0) = none
    ∧ (chunks 20 (List.replicate 40 0)).length = 2
    ∧ extract_piece_hashes (List.replicate 40 0)
      = some ((chunks 20 (List.replicate 40 0)).map bytesHex) := by
  refine ⟨(claim7_segment_pieces _).1 (by decide), ?_,
    ((claim7_segment_pieces _).2 (by decide)).1⟩
  have h := ((claim7_segment_pieces (List.replicate 40 0)).2 (by decide)).2.2.2
  rw [h]
  decide

/-- C8: byte-string decoding is length-prefix exact, for *arbitrary*
string contents (the string branch of the source is byte-correct): for
every string `s` of byte length below 1000, decoding `<len>:<s>` returns
`(Bytes s, colon_index + 1 + len)`, where `colon_index` is the digit
count of the length prefix. -/
theorem claim8_length_prefix_exact (s : List Char) (h : byteLen s < 1000) :
    decode_bencoded_value (encode_length_prefixed s)
      = some (Json.str s, (natChars (byteLen s)).length + 1 + byteLen s) := by
  unfold encode_length_prefixed decode_bencoded_value
  obtain ⟨F, hF⟩ : ∃ F, 2 * byteLen (strEnc s) + 2 = F + 1 :=
    ⟨2 * byteLen (strEnc s) + 1, by omega⟩
  rw [hF]
  have hd := decodeF_strEnc s [] (by omega) F
  rw [List.append_nil] at hd
  rw [hd, byteLen_strEnc, byteLen_ascii natChars_ascii]

theorem claim8_length_prefix_exact_witness :
    byteLen ['s','p','a','m'] < 1000
    ∧ decode_bencoded_value (encode_length_prefixed ['s','p','a','m'])
      = some (Json.str ['s','p','a','m'],
          (natChars (byteLen ['s','p','a','m'])).length + 1 + byteLen ['s','p','a','m']) :=
  ⟨by decide, claim8_length_prefix_exact ['s','p','a','m'] (by decide)⟩

/-- C9: `calculate_info_hash` is a pure function, hence deterministic —
two invocations on the same `Info` give the same result — and its output
is exactly 40 characters, all lowercase hexadecimal (the 20 digest bytes
each rendered as two lowercase hex digits). -/
theorem claim9_info_digest (i : Info) :
    calculate_info_hash i = calculate_info_hash i
    ∧ (calculate_info_hash i).length = 40
    ∧ (calculate_info_hash i).all isLowerHex = true := by
  refine ⟨rfl, ?_, ?_⟩
  · show (bytesHex (sha1 (bencodeInfo i))).length = 40
    rw [bytesHex_length, sha1_length]
  · exact bytesHex_lowerHex (sha1_lt _)

/-- C10: on any input that begins with an ASCII digit but contains no
colon, the length-prefix scan's `encoded.find(':').unwrap()` panics
(modelled as `none`): the function returns neither a value nor an error
result. -/
theorem claim10_digit_no_colon_panics (s : List Char) (c : Char) (t : List Char)
    (hs : s = c :: t) (hdig : c.isDigit = true) (hcolon : ':' ∉ s) :
    decode_bencoded_value s = none := by
  subst hs
  unfold decode_bencoded_value
  obtain ⟨F, hF⟩ : ∃ F, 2 * byteLen (c :: t) + 2 = F + 1 :=
    ⟨2 * byteLen (c :: t) + 1, by omega⟩
  rw [hF]
  simp only [decodeF]
  rw [if_pos hdig, byteFind_not_mem hcolon]

theorem claim10_digit_no_colon_panics_witness :
    decode_bencoded_value ['4','2'] = none :=
  claim10_digit_no_colon_panics ['4','2'] '4' ['2'] rfl (by decide) (by decide)

end RustBittorrent
